import Mathlib

/-!
Shallow embedding of `pymagetable.py`: run-length compression of a pixel
grid, frequency-based selection of "aliased" colors, bijective-base label
generation, and HTML/CSS rendering.  Definitions mirror the Python source;
theorems settle the specification claims.
-/

/-- RGB color: a triple of naturals (red, green, blue). -/
abbrev Color := Nat × Nat × Nat

/-! ## Run compressor (`compressed_matrix`)

The Python loop keeps a current `(length, value)` run and scans the rest of
the row; `compressRowAux length value rest` is that loop.  An empty row makes
`row[0]` raise (IndexError), modelled by `Option`. -/

/-- Inner loop of `compressed_matrix` over one row: current run is
`(length, value)`, remaining cells are the argument list. -/
def compressRowAux {α : Type} [DecidableEq α] (length : Nat) (value : α) :
    List α → List (Nat × α)
  | [] => [(length, value)]
  | cell :: rest =>
    if cell = value then compressRowAux (length + 1) value rest
    else (length, value) :: compressRowAux 1 cell rest

/-- Compress one row; `none` models the IndexError on `row[0]` for an empty
row. -/
def compressRow {α : Type} [DecidableEq α] : List α → Option (List (Nat × α))
  | [] => none
  | value :: rest => some (compressRowAux 1 value rest)

/-- `compressed_matrix`: row-by-row run-length compression of a matrix. -/
def compressed_matrix {α : Type} [DecidableEq α] :
    List (List α) → Option (List (List (Nat × α)))
  | [] => some []
  | row :: rest =>
    match compressRow row, compressed_matrix rest with
    | some crow, some crest => some (crow :: crest)
    | _, _ => none

/-- Expansion of a compressed row back to cells: each run `(n, v)` becomes
`n` copies of `v`. -/
def expandRow {α : Type} (crow : List (Nat × α)) : List α :=
  (crow.map (fun p => List.replicate p.1 p.2)).flatten

/-- Expansion of a whole compressed matrix. -/
def expandMatrix {α : Type} (cm : List (List (Nat × α))) : List (List α) :=
  cm.map expandRow

theorem expandRow_compressRowAux {α : Type} [DecidableEq α]
    (rest : List α) : ∀ (n : Nat) (v : α),
    expandRow (compressRowAux n v rest) = List.replicate n v ++ rest := by
  induction rest with
  | nil =>
    intro n v
    simp [compressRowAux, expandRow]
  | cons c rest ih =>
    intro n v
    by_cases hc : c = v
    · subst hc
      have h1 : compressRowAux n c (c :: rest) = compressRowAux (n + 1) c rest := by
        simp [compressRowAux]
      rw [h1, ih, List.replicate_succ' n c]
      simp
    · have h1 : compressRowAux n v (c :: rest) = (n, v) :: compressRowAux 1 c rest := by
        simp [compressRowAux, hc]
      rw [h1]
      have h2 := ih 1 c
      simp only [expandRow, List.map_cons, List.flatten_cons] at h2 ⊢
      rw [h2]
      simp

theorem expandRow_compressRow {α : Type} [DecidableEq α]
    (row : List α) (crow : List (Nat × α)) (h : compressRow row = some crow) :
    expandRow crow = row := by
  cases row with
  | nil => simp [compressRow] at h
  | cons v rest =>
    simp only [compressRow, Option.some.injEq] at h
    subst h
    rw [expandRow_compressRowAux]
    simp [List.replicate]

theorem compressRowAux_pos {α : Type} [DecidableEq α]
    (rest : List α) : ∀ (n : Nat) (v : α), 1 ≤ n →
    ∀ p ∈ compressRowAux n v rest, 1 ≤ p.1 := by
  induction rest with
  | nil =>
    intro n v hn p hp
    simp [compressRowAux] at hp
    subst hp
    exact hn
  | cons c rest ih =>
    intro n v hn p hp
    by_cases hc : c = v
    · subst hc
      simp only [compressRowAux, if_pos rfl] at hp
      exact ih (n + 1) c (by omega) p hp
    · simp only [compressRowAux, if_neg hc, List.mem_cons] at hp
      rcases hp with hp | hp
      · subst hp; exact hn
      · exact ih 1 c (by omega) p hp

theorem compressRowAux_sum {α : Type} [DecidableEq α]
    (rest : List α) : ∀ (n : Nat) (v : α),
    ((compressRowAux n v rest).map Prod.fst).sum = n + rest.length := by
  induction rest with
  | nil => intro n v; simp [compressRowAux]
  | cons c rest ih =>
    intro n v
    by_cases hc : c = v
    · subst hc
      have h1 : compressRowAux n c (c :: rest) = compressRowAux (n + 1) c rest := by
        simp [compressRowAux]
      rw [h1, ih (n + 1) c]
      simp; omega
    · simp only [compressRowAux, if_neg hc, List.map_cons, List.sum_cons]
      rw [ih 1 c]
      simp; omega

theorem compressRowAux_head {α : Type} [DecidableEq α]
    (rest : List α) : ∀ (n : Nat) (v : α),
    ∃ m t, compressRowAux n v rest = (m, v) :: t := by
  induction rest with
  | nil => intro n v; exact ⟨n, [], rfl⟩
  | cons c rest ih =>
    intro n v
    by_cases hc : c = v
    · subst hc
      simp only [compressRowAux, if_pos rfl]
      exact ih (n + 1) c
    · exact ⟨n, compressRowAux 1 c rest, by simp [compressRowAux, hc]⟩

theorem compressRowAux_chain {α : Type} [DecidableEq α]
    (rest : List α) : ∀ (n : Nat) (v : α),
    List.Chain' (fun a b => a.2 ≠ b.2) (compressRowAux n v rest) := by
  induction rest with
  | nil => intro n v; simp [compressRowAux]
  | cons c rest ih =>
    intro n v
    by_cases hc : c = v
    · subst hc
      simp only [compressRowAux, if_pos rfl]
      exact ih (n + 1) c
    · simp only [compressRowAux, if_neg hc]
      rw [List.chain'_cons']
      constructor
      · intro y hy
        obtain ⟨m, t, hmt⟩ := compressRowAux_head rest 1 c
        rw [hmt] at hy
        simp at hy
        subst hy
        simp
        intro h
        exact hc h.symm
      · exact ih 1 c

/-- Properties of one compressed row: positive run lengths, lengths summing
to the row width, no two adjacent runs of equal color. -/
def GoodRow {α : Type} (row : List α) (crow : List (Nat × α)) : Prop :=
  (∀ p ∈ crow, 1 ≤ p.1) ∧ ((crow.map Prod.fst).sum = row.length) ∧
    List.Chain' (fun a b => a.2 ≠ b.2) crow

theorem compressRow_good {α : Type} [DecidableEq α]
    (row : List α) (crow : List (Nat × α)) (h : compressRow row = some crow) :
    GoodRow row crow := by
  cases row with
  | nil => simp [compressRow] at h
  | cons v rest =>
    simp only [compressRow, Option.some.injEq] at h
    subst h
    refine ⟨compressRowAux_pos rest 1 v (by omega), ?_, compressRowAux_chain rest 1 v⟩
    rw [compressRowAux_sum rest 1 v]
    simp
    omega

/-- C4: expanding each run of `compressed_matrix grid` back into `length`
repeated cells, row by row, yields exactly the original grid (round-trip
law); stated for every grid on which compression succeeds, which covers all
grids with non-empty rows, rectangular ones included. -/
theorem C4_compress_expand_roundtrip {α : Type} [DecidableEq α]
    (m : List (List α)) (cm : List (List (Nat × α)))
    (h : compressed_matrix m = some cm) : expandMatrix cm = m := by
  induction m generalizing cm with
  | nil =>
    simp only [compressed_matrix, Option.some.injEq] at h
    subst h
    rfl
  | cons row rest ih =>
    cases hrow : compressRow row with
    | none => simp [compressed_matrix, hrow] at h
    | some crow =>
      cases hrest : compressed_matrix rest with
      | none => simp [compressed_matrix, hrow, hrest] at h
      | some crest =>
        simp only [compressed_matrix, hrow, hrest, Option.some.injEq] at h
        subst h
        simp only [expandMatrix, List.map_cons]
        rw [expandRow_compressRow row crow hrow]
        have := ih crest hrest
        simp only [expandMatrix] at this
        rw [this]

/-- C4 witness: the doctest matrix round-trips through compression. -/
theorem C4_witness :
    compressed_matrix [[1, 2, 3], [4, 4, 4], [5, 5, 6]] =
      some [[(1, 1), (1, 2), (1, 3)], [(3, 4)], [(2, 5), (1, 6)]] ∧
    expandMatrix [[(1, 1), (1, 2), (1, 3)], [(3, 4)], [(2, 5), (1, 6)]] =
      [[1, 2, 3], [4, 4, 4], [5, 5, 6]] :=
  ⟨by decide, C4_compress_expand_roundtrip
    [[1, 2, 3], [4, 4, 4], [5, 5, 6]]
    [[(1, 1), (1, 2), (1, 3)], [(3, 4)], [(2, 5), (1, 6)]] (by decide)⟩

/-- C5: on success, the compressed matrix has one row per input row, and
each compressed row has positive run lengths summing to the input row's
width, with no two adjacent runs of equal color (maximal merge). -/
theorem C5_compressed_invariants {α : Type} [DecidableEq α]
    (m : List (List α)) (cm : List (List (Nat × α)))
    (h : compressed_matrix m = some cm) :
    cm.length = m.length ∧ List.Forall₂ GoodRow m cm := by
  induction m generalizing cm with
  | nil =>
    simp only [compressed_matrix, Option.some.injEq] at h
    subst h
    exact ⟨rfl, List.Forall₂.nil⟩
  | cons row rest ih =>
    cases hrow : compressRow row with
    | none => simp [compressed_matrix, hrow] at h
    | some crow =>
      cases hrest : compressed_matrix rest with
      | none => simp [compressed_matrix, hrow, hrest] at h
      | some crest =>
        simp only [compressed_matrix, hrow, hrest, Option.some.injEq] at h
        subst h
        obtain ⟨hlen, hall⟩ := ih crest hrest
        refine ⟨by simp [hlen], List.Forall₂.cons ?_ hall⟩
        exact compressRow_good row crow hrow

/-- C5 witness: the invariants hold on the doctest matrix. -/
theorem C5_witness :
    compressed_matrix [[1, 2, 3], [4, 4, 4], [5, 5, 6]] =
      some [[(1, 1), (1, 2), (1, 3)], [(3, 4)], [(2, 5), (1, 6)]] ∧
    ([[(1, 1), (1, 2), (1, 3)], [(3, 4)], [(2, 5), (1, 6)]] :
        List (List (Nat × Nat))).length =
      ([[1, 2, 3], [4, 4, 4], [5, 5, 6]] : List (List Nat)).length ∧
    List.Forall₂ GoodRow [[1, 2, 3], [4, 4, 4], [5, 5, 6]]
      [[(1, 1), (1, 2), (1, 3)], [(3, 4)], [(2, 5), (1, 6)]] :=
  ⟨by decide, C5_compressed_invariants
    [[1, 2, 3], [4, 4, 4], [5, 5, 6]]
    [[(1, 1), (1, 2), (1, 3)], [(3, 4)], [(2, 5), (1, 6)]] (by decide)⟩

/-- C9: `compressed_matrix` fails exactly when some input row is empty; on
every grid whose rows are all non-empty it succeeds. -/
theorem C9_fails_iff_empty_row {α : Type} [DecidableEq α]
    (m : List (List α)) :
    compressed_matrix m = none ↔ ∃ row ∈ m, row = [] := by
  induction m with
  | nil => simp [compressed_matrix]
  | cons row rest ih =>
    cases row with
    | nil =>
      constructor
      · intro _
        exact ⟨[], List.mem_cons_self _ _, rfl⟩
      · intro _
        simp [compressed_matrix, compressRow]
    | cons v vs =>
      constructor
      · intro h
        simp only [compressed_matrix, compressRow] at h
        cases hrest : compressed_matrix rest with
        | none =>
          obtain ⟨r, hr, hre⟩ := ih.mp hrest
          exact ⟨r, List.mem_cons_of_mem _ hr, hre⟩
        | some crest =>
          rw [hrest] at h
          simp at h
      · intro hex
        obtain ⟨r, hr, hre⟩ := hex
        rcases List.mem_cons.mp hr with h1 | h1
        · rw [h1] at hre
          simp at hre
        · have hnone : compressed_matrix rest = none := ih.mpr ⟨r, h1, hre⟩
          simp [compressed_matrix, compressRow, hnone]

/-! ## Label sequence generator (`permutations`)

The Python generator keeps a mutable list `chars` of digit indices,
least-significant first, and on each request yields the rendering of
`chars` (reversed, mapped through `values`) and then increments with carry:
the first digit below `len(values) - 1` is incremented and all digits below
it are zeroed; if every digit is at the maximum, all digits are zeroed and a
new digit is appended. -/

/-- The rendering step: `values[c] for c in reversed(chars)`, joined. -/
def renderChars (values : List Char) (chars : List Nat) : String :=
  String.mk (chars.reverse.map (fun i => values.getD i 'a'))

/-- The carry loop of the generator: increment the first digit below
`n - 1`, zeroing the digits scanned before it; `none` means every digit was
at the maximum (all were zeroed). -/
def incrChars (n : Nat) : List Nat → Option (List Nat)
  | [] => none
  | x :: rest =>
    if n - 1 ≤ x then (incrChars n rest).map (fun r => 0 :: r)
    else some ((x + 1) :: rest)

/-- One full increment: on total carry the Python loop has zeroed every
digit and then appends a fresh most-significant digit `0`. -/
def stepChars (n : Nat) (chars : List Nat) : List Nat :=
  match incrChars n chars with
  | some r => r
  | none => chars.map (fun _ => 0) ++ [0]

/-- Digit state before the `(k+1)`-th yield; the generator starts at `[0]`. -/
def permChars (n : Nat) : Nat → List Nat
  | 0 => [0]
  | k + 1 => stepChars n (permChars n k)

/-- The `pos`-th string yielded by `permutations values` (1-based). -/
def nthOutput (values : List Char) (pos : Nat) : String :=
  renderChars values (permChars values.length (pos - 1))

/-- The lowercase alphabet used for class labels. -/
def alpha26 : List Char :=
  ['a', 'b', 'c', 'd', 'e', 'f', 'g', 'h', 'i', 'j', 'k', 'l', 'm',
   'n', 'o', 'p', 'q', 'r', 's', 't', 'u', 'v', 'w', 'x', 'y', 'z']

theorem permChars_chain (n a b k : Nat) (hk : a + b = k) (s : List Nat)
    (hs : permChars n a = s) : permChars n k = (stepChars n)^[b] s := by
  subst hk
  subst hs
  induction b with
  | zero => rfl
  | succ b ih =>
    rw [Nat.add_succ]
    show stepChars n (permChars n (a + b)) = _
    rw [ih, Function.iterate_succ_apply']

set_option maxRecDepth 2000 in
/-- C6: over the 26-letter alphabet, outputs 1, 2, 26, 27, 28, 702, 703 of
the generator are "a", "b", "z", "aa", "ab", "zz", "aaa". -/
theorem C6_alphabet26_values :
    nthOutput alpha26 1 = "a" ∧ nthOutput alpha26 2 = "b" ∧
    nthOutput alpha26 26 = "z" ∧ nthOutput alpha26 27 = "aa" ∧
    nthOutput alpha26 28 = "ab" ∧ nthOutput alpha26 702 = "zz" ∧
    nthOutput alpha26 703 = "aaa" := by
  have a1 : permChars 26 150 = [20, 4] := by
    rw [permChars_chain 26 0 150 150 rfl [0] rfl]
    decide
  have a2 : permChars 26 300 = [14, 10] := by
    rw [permChars_chain 26 150 150 300 rfl [20, 4] a1]
    decide
  have a3 : permChars 26 450 = [8, 16] := by
    rw [permChars_chain 26 300 150 450 rfl [14, 10] a2]
    decide
  have a4 : permChars 26 600 = [2, 22] := by
    rw [permChars_chain 26 450 150 600 rfl [8, 16] a3]
    decide
  have a5 : permChars 26 701 = [25, 25] := by
    rw [permChars_chain 26 600 101 701 rfl [2, 22] a4]
    decide
  have a6 : permChars 26 702 = [0, 0, 0] := by
    rw [permChars_chain 26 701 1 702 rfl [25, 25] a5]
    decide
  refine ⟨rfl, rfl, by decide, by decide, by decide, ?_, ?_⟩
  · show renderChars alpha26 (permChars 26 701) = "zz"
    rw [a5]
    decide
  · show renderChars alpha26 (permChars 26 702) = "aaa"
    rw [a6]
    decide

/-- Value of a digit state as a bijective base-`n` numeral,
least-significant digit first; digit `d` stands for symbol number `d + 1`. -/
def bval (n : Nat) : List Nat → Nat
  | [] => 0
  | d :: rest => d + 1 + n * bval n rest

/-- Well-formed generator state: non-empty, every digit below the alphabet
size. -/
def ValidChars (n : Nat) (l : List Nat) : Prop :=
  l ≠ [] ∧ ∀ d ∈ l, d < n

theorem incrChars_some (n : Nat) (hn : 1 ≤ n) :
    ∀ (l r : List Nat), (∀ d ∈ l, d < n) → incrChars n l = some r →
    bval n r = bval n l + 1 ∧ r.length = l.length ∧ ∀ d ∈ r, d < n := by
  intro l
  induction l with
  | nil => intro r _ h; simp [incrChars] at h
  | cons x rest ih =>
    intro r hb h
    have hx : x < n := hb x (List.mem_cons_self _ _)
    have hbrest : ∀ d ∈ rest, d < n := fun d hd => hb d (List.mem_cons_of_mem _ hd)
    by_cases hc : n - 1 ≤ x
    · have hx1 : x = n - 1 := by omega
      simp only [incrChars, if_pos hc] at h
      cases hr : incrChars n rest with
      | none => rw [hr] at h; simp at h
      | some r' =>
        rw [hr] at h
        simp at h
        subst h
        obtain ⟨hv, hl, hd⟩ := ih r' hbrest hr
        refine ⟨?_, by simp [hl], ?_⟩
        · simp only [bval, hv, hx1]
          have : n - 1 + 1 = n := by omega
          rw [this]
          ring
        · intro d hd'
          rcases List.mem_cons.mp hd' with h1 | h1
          · subst h1; omega
          · exact hd d h1
    · simp only [incrChars, if_neg hc] at h
      simp only [Option.some.injEq] at h
      subst h
      refine ⟨?_, rfl, ?_⟩
      · simp only [bval]; ring
      · intro d hd'
        rcases List.mem_cons.mp hd' with h1 | h1
        · subst h1; omega
        · exact hbrest d h1

theorem incrChars_none (n : Nat) :
    ∀ (l : List Nat), (∀ d ∈ l, d < n) → incrChars n l = none →
    l = List.replicate l.length (n - 1) := by
  intro l
  induction l with
  | nil => intro _ _; rfl
  | cons x rest ih =>
    intro hb h
    have hx : x < n := hb x (List.mem_cons_self _ _)
    have hbrest : ∀ d ∈ rest, d < n := fun d hd => hb d (List.mem_cons_of_mem _ hd)
    by_cases hc : n - 1 ≤ x
    · simp only [incrChars, if_pos hc] at h
      cases hr : incrChars n rest with
      | none =>
        have hrest' := ih hbrest hr
        have hx1 : x = n - 1 := by omega
        rw [List.length_cons, List.replicate_succ, ← hrest', hx1]
      | some r' => rw [hr] at h; simp at h
    · simp only [incrChars] at h
      rw [if_neg hc] at h
      simp at h

theorem bval_cons (n d : Nat) (l : List Nat) :
    bval n (d :: l) = d + 1 + n * bval n l := rfl

theorem bval_zeros_succ (n : Nat) (hn : 1 ≤ n) :
    ∀ k, bval n (List.replicate (k + 1) 0) =
      bval n (List.replicate k (n - 1)) + 1 := by
  intro k
  induction k with
  | zero => simp [bval]
  | succ k ih =>
    have h2 : n - 1 + 1 = n := by omega
    rw [List.replicate_succ, bval_cons, ih, List.replicate_succ, bval_cons, h2]
    ring

theorem stepChars_spec (n : Nat) (hn : 1 ≤ n) (l : List Nat)
    (hv : ValidChars n l) :
    bval n (stepChars n l) = bval n l + 1 ∧ ValidChars n (stepChars n l) ∧
      l.length ≤ (stepChars n l).length := by
  obtain ⟨hne, hb⟩ := hv
  cases hr : incrChars n l with
  | some r =>
    obtain ⟨h1, h2, h3⟩ := incrChars_some n hn l r hb hr
    have hrne : r ≠ [] := by
      intro h
      subst h
      simp at h2
      exact hne (List.eq_nil_of_length_eq_zero h2.symm)
    simp only [stepChars, hr]
    exact ⟨h1, ⟨hrne, h3⟩, by omega⟩
  | none =>
    have hrep := incrChars_none n l hb hr
    have hmap : l.map (fun _ => 0) = List.replicate l.length 0 := by
      simp [List.map_const]
    simp only [stepChars, hr, hmap]
    rw [← List.replicate_succ' (l.length) 0]
    refine ⟨?_, ⟨by simp, ?_⟩, by simp⟩
    · rw [bval_zeros_succ n hn l.length]
      rw [← hrep]
    · intro d hd
      rw [List.eq_of_mem_replicate hd]
      omega

theorem permChars_valid (n : Nat) (hn : 1 ≤ n) :
    ∀ k, ValidChars n (permChars n k) := by
  intro k
  induction k with
  | zero =>
    refine ⟨by simp [permChars], ?_⟩
    intro d hd
    simp [permChars] at hd
    omega
  | succ k ih =>
    exact (stepChars_spec n hn (permChars n k) ih).2.1

theorem permChars_bval (n : Nat) (hn : 1 ≤ n) :
    ∀ k, bval n (permChars n k) = k + 1 := by
  intro k
  induction k with
  | zero => simp [permChars, bval]
  | succ k ih =>
    have := (stepChars_spec n hn (permChars n k) (permChars_valid n hn k)).1
    show bval n (stepChars n (permChars n k)) = k + 1 + 1
    rw [this, ih]

theorem permChars_length_mono (n : Nat) (hn : 1 ≤ n) :
    Monotone (fun k => (permChars n k).length) := by
  apply monotone_nat_of_le_succ
  intro k
  exact (stepChars_spec n hn (permChars n k) (permChars_valid n hn k)).2.2

theorem bval_inj (n : Nat) :
    ∀ (l1 l2 : List Nat), (∀ d ∈ l1, d < n) → (∀ d ∈ l2, d < n) →
    bval n l1 = bval n l2 → l1 = l2 := by
  intro l1
  induction l1 with
  | nil =>
    intro l2 _ _ h
    cases l2 with
    | nil => rfl
    | cons d r =>
      simp only [bval] at h
      generalize n * bval n r = B at h
      omega
  | cons d1 r1 ih =>
    intro l2 hb1 hb2 h
    cases l2 with
    | nil =>
      simp only [bval] at h
      generalize n * bval n r1 = B at h
      omega
    | cons d2 r2 =>
      have hd1 : d1 < n := hb1 d1 (List.mem_cons_self _ _)
      have hd2 : d2 < n := hb2 d2 (List.mem_cons_self _ _)
      have hn : 0 < n := by omega
      simp only [bval] at h
      have h' : d1 + n * bval n r1 = d2 + n * bval n r2 := by
        generalize n * bval n r1 = B1 at h ⊢
        generalize n * bval n r2 = B2 at h ⊢
        omega
      have hmod : d1 = d2 := by
        have e1 : (d1 + n * bval n r1) % n = d1 % n :=
          Nat.add_mul_mod_self_left d1 n (bval n r1)
        have e2 : (d2 + n * bval n r2) % n = d2 % n :=
          Nat.add_mul_mod_self_left d2 n (bval n r2)
        rw [h'] at e1
        rw [e2] at e1
        rw [Nat.mod_eq_of_lt hd1, Nat.mod_eq_of_lt hd2] at e1
        exact e1.symm
      subst hmod
      have hB : bval n r1 = bval n r2 := by
        have : n * bval n r1 = n * bval n r2 := by omega
        exact Nat.eq_of_mul_eq_mul_left hn this
      have := ih r2 (fun d hd => hb1 d (List.mem_cons_of_mem _ hd))
        (fun d hd => hb2 d (List.mem_cons_of_mem _ hd)) hB
      rw [this]

theorem getD_inj_of_nodup (values : List Char) (hnd : values.Nodup)
    (i j : Nat) (hi : i < values.length) (hj : j < values.length)
    (h : values.getD i 'a' = values.getD j 'a') : i = j := by
  rw [List.getD_eq_getElem values 'a' hi, List.getD_eq_getElem values 'a' hj] at h
  exact (List.Nodup.getElem_inj_iff hnd).mp h

theorem map_getD_inj (values : List Char) (hnd : values.Nodup) :
    ∀ (l1 l2 : List Nat), (∀ d ∈ l1, d < values.length) →
    (∀ d ∈ l2, d < values.length) →
    l1.map (fun i => values.getD i 'a') = l2.map (fun i => values.getD i 'a') →
    l1 = l2 := by
  intro l1
  induction l1 with
  | nil =>
    intro l2 _ _ h
    cases l2 with
    | nil => rfl
    | cons d r => simp at h
  | cons d1 r1 ih =>
    intro l2 hb1 hb2 h
    cases l2 with
    | nil => simp at h
    | cons d2 r2 =>
      simp only [List.map_cons, List.cons.injEq] at h
      obtain ⟨hh, ht⟩ := h
      have hd := getD_inj_of_nodup values hnd d1 d2
        (hb1 d1 (List.mem_cons_self _ _)) (hb2 d2 (List.mem_cons_self _ _)) hh
      rw [hd, ih r2 (fun d hd' => hb1 d (List.mem_cons_of_mem _ hd'))
        (fun d hd' => hb2 d (List.mem_cons_of_mem _ hd')) ht]

theorem renderChars_inj (values : List Char) (hnd : values.Nodup)
    (l1 l2 : List Nat) (hb1 : ∀ d ∈ l1, d < values.length)
    (hb2 : ∀ d ∈ l2, d < values.length)
    (h : renderChars values l1 = renderChars values l2) : l1 = l2 := by
  have hdata : l1.reverse.map (fun i => values.getD i 'a') =
      l2.reverse.map (fun i => values.getD i 'a') := congrArg String.data h
  have hrev := map_getD_inj values hnd l1.reverse l2.reverse
    (fun d hd => hb1 d (List.mem_reverse.mp hd))
    (fun d hd => hb2 d (List.mem_reverse.mp hd)) hdata
  exact List.reverse_injective hrev

theorem renderChars_length (values : List Char) (l : List Nat) :
    (renderChars values l).length = l.length := by
  have h : (renderChars values l).length =
      (l.reverse.map (fun i => values.getD i 'a')).length := rfl
  rw [h]
  simp

/-- C7: for every alphabet (a non-empty list of distinct symbols) and every
count K ≥ 1, the first K outputs of the generator are pairwise distinct and
their lengths are non-decreasing. -/
theorem C7_distinct_nondecreasing (values : List Char) (hne : values ≠ [])
    (hnd : values.Nodup) (K i j : Nat) (hK : 1 ≤ K) (hi : 1 ≤ i)
    (hij : i < j) (hjK : j ≤ K) :
    nthOutput values i ≠ nthOutput values j ∧
      (nthOutput values i).length ≤ (nthOutput values j).length := by
  have hn : 1 ≤ values.length := List.length_pos.mpr hne
  constructor
  · intro heq
    have hv1 := permChars_valid values.length hn (i - 1)
    have hv2 := permChars_valid values.length hn (j - 1)
    have hsame := renderChars_inj values hnd _ _ hv1.2 hv2.2 heq
    have hb1 := permChars_bval values.length hn (i - 1)
    have hb2 := permChars_bval values.length hn (j - 1)
    rw [hsame] at hb1
    omega
  · show (renderChars values (permChars values.length (i - 1))).length ≤
      (renderChars values (permChars values.length (j - 1))).length
    rw [renderChars_length, renderChars_length]
    exact permChars_length_mono values.length hn (by omega)

/-- C7 witness: alphabet ['a', 'b'], count K = 3, positions 1 and 3. -/
theorem C7_witness :
    (['a', 'b'] : List Char) ≠ [] ∧ (['a', 'b'] : List Char).Nodup ∧
    1 ≤ 3 ∧ 1 ≤ 1 ∧ 1 < 3 ∧ 3 ≤ 3 ∧
    (nthOutput ['a', 'b'] 1 ≠ nthOutput ['a', 'b'] 3 ∧
      (nthOutput ['a', 'b'] 1).length ≤ (nthOutput ['a', 'b'] 3).length) :=
  ⟨by decide, by decide, by decide, by decide, by decide, by decide,
    C7_distinct_nondecreasing ['a', 'b'] (by decide) (by decide) 3 1 3
      (by decide) (by decide) (by decide) (by decide)⟩

/-! ## Frequency analyzer (`values_sorted_by_frequency`)

The Python function builds a `defaultdict(int)` counter (iteration order of
a dict is insertion order, i.e. first-encounter order of the scan), keeps
the values with count at least 2, and sorts them with
`key=operator.itemgetter(1), reverse=True`.  The generator expression
strips the counts before sorting, so the key is applied to the color value
itself: `itemgetter(1)` reads the color's second component (green channel).
Python's `sorted` is stable; `reverse=True` keeps equal-key elements in
their original order. -/

/-- Distinct elements in first-encounter order: the key order of a dict
built by successive insertions. -/
def firstEncounters {α : Type} [DecidableEq α] (l : List α) : List α :=
  l.foldl (fun acc e => if e ∈ acc then acc else acc ++ [e]) []

/-- `counter.items()`: each distinct element with its total count, in
first-encounter order. -/
def counterItems (l : List Color) : List (Color × Nat) :=
  (firstEncounters l).map (fun e => (e, l.count e))

/-- `operator.itemgetter(1)` applied to a color: its second component, the
green channel. -/
def item1 (c : Color) : Nat := c.2.1

/-- Stable insertion for a descending sort: `x` is placed after every
already-placed element whose key is at least its own. -/
def insertDesc (key : Color → Nat) (x : Color) : List Color → List Color
  | [] => [x]
  | y :: ys => if key y < key x then x :: y :: ys else y :: insertDesc key x ys

/-- Stable sort, descending by `key`: Python's `sorted(..., key=key,
reverse=True)`. -/
def sortDescBy (key : Color → Nat) (l : List Color) : List Color :=
  l.foldl (fun acc x => insertDesc key x acc) []

/-- `values_sorted_by_frequency` from the source: count occurrences, keep
the values occurring at least twice, and sort them descending by
`itemgetter(1)` — which here reads the green channel of the color, the
counts having been stripped by the generator expression. -/
def values_sorted_by_frequency (l : List Color) : List Color :=
  sortDescBy item1 (((counterItems l).filter (fun p => 2 ≤ p.2)).map Prod.fst)

/-! ## Renderer (`ImageTable`) -/

/-- Python `sep.join(parts)`. -/
def pyJoin (sep : String) : List String → String
  | [] => ""
  | [x] => x
  | x :: y :: rest => x ++ sep ++ pyJoin sep (y :: rest)

/-- `%02x`: lowercase hexadecimal, zero-padded to a minimum width of 2. -/
def hex2 (n : Nat) : String :=
  (if n < 16 then "0" else "") ++ String.mk (Nat.toDigits 16 n)

/-- The `rrggbb` part of `'%02x%02x%02x' % color`. -/
def hexColor (c : Color) : String := hex2 c.1 ++ hex2 c.2.1 ++ hex2 c.2.2

/-- Lookup in the color→label map (`color in d` / `d[color]` on a dict,
modelled as an association list in insertion order). -/
def lookupColor : List (Color × String) → Color → Option String
  | [], _ => none
  | (c, lbl) :: rest, col => if col = c then some lbl else lookupColor rest col

/-- The `ImageTable` object: the compressed pixel matrix and the container
class name `c` (default `"image"`). -/
structure ImageTable where
  pixel_matrix : List (List (Nat × Color))
  c : String

/-- `ImageTable.__init__`: compress the raw pixel matrix; `none` when
compression raises on an empty row. -/
def ImageTable.init (g : List (List Color)) (c : String) : Option ImageTable :=
  (compressed_matrix g).map (fun pm => ⟨pm, c⟩)

/-- `color_classes`: run colors of the compressed matrix in row-major
order, ranked by `values_sorted_by_frequency`, each paired with the next
label of `permutations('abcdefghijklmnopqrstuvwxyz')`. -/
def ImageTable.color_classes (t : ImageTable) : List (Color × String) :=
  ((values_sorted_by_frequency
      ((t.pixel_matrix.map (fun row => row.map Prod.snd)).flatten)).enum).map
    (fun p => (p.2, nthOutput alpha26 (p.1 + 1)))

/-- `width`: run-length sum of row 0; `none` models the IndexError on an
empty matrix. -/
def ImageTable.width (t : ImageTable) : Option Nat :=
  match t.pixel_matrix with
  | [] => none
  | row :: _ => some ((row.map Prod.fst).sum)

/-- Body of `cellattr` for a given color→label map. -/
def cellattrWith (ccs : List (Color × String)) (cell : Nat × Color) : String :=
  let classes : List String :=
    match lookupColor ccs cell.2 with
    | some lbl => [lbl]
    | none => []
  let styles1 : List String :=
    match lookupColor ccs cell.2 with
    | some _ => []
    | none => ["background:#" ++ hexColor cell.2]
  let styles2 : List String :=
    styles1 ++ (if 1 < cell.1 then ["width:" ++ toString cell.1 ++ "px"] else [])
  let attrs : List String :=
    (if classes.isEmpty then [] else ["class=\"" ++ pyJoin " " classes ++ "\""]) ++
    (if styles2.isEmpty then [] else ["style=\"" ++ pyJoin ";" styles2 ++ "\""])
  pyJoin " " attrs

/-- `cellattr`: the attribute string of one rendered cell. -/
def ImageTable.cellattr (t : ImageTable) (cell : Nat × Color) : String :=
  cellattrWith t.color_classes cell

/-- `styles`: container width rule and base cell rule, then one rule per
(color, label) pair of the class map. -/
def ImageTable.styles (t : ImageTable) : Option String :=
  t.width.map (fun w =>
    "p." ++ t.c ++ "\x7bwidth:" ++ toString w ++ "px;\x7d" ++
    "p." ++ t.c ++ " a\x7bfloat:left;width:1px;height:1px;padding:0;margin:0\x7d" ++
    pyJoin "" (t.color_classes.map (fun p =>
      "p." ++ t.c ++ " ." ++ p.2 ++ "\x7bbackground:#" ++ hexColor p.1 ++ "\x7d")))

/-- `main`: the container element with one child element per run, in
row-major order. -/
def ImageTable.main (t : ImageTable) : String :=
  "<p class=\"" ++ t.c ++ "\">" ++
  pyJoin "" (t.pixel_matrix.map (fun row =>
    pyJoin "" (row.map (fun cell => "<a " ++ t.cellattr cell ++ "/>")))) ++
  "</p>"

/-- `html`: full document; fails exactly where `styles` does. -/
def ImageTable.html (t : ImageTable) : Option String :=
  t.styles.map (fun s =>
    "<html><head><style>" ++ s ++ "</style><body>" ++ t.main ++ "</body></html>")

/-- C1: code-bug evidence. With color `(0,0,0)` occurring 3 times and
`(0,5,0)` occurring twice, `values_sorted_by_frequency` returns the
less-frequent color first: the sort key `itemgetter(1)` lands on the bare
color (its green channel), the counts having been stripped by the generator
expression, so the result is not ordered by descending occurrence count. -/
theorem C1_sorts_by_green_channel_not_count :
    values_sorted_by_frequency
        [(0, 0, 0), (0, 0, 0), (0, 0, 0), (0, 5, 0), (0, 5, 0)] =
      [(0, 5, 0), (0, 0, 0)] ∧
    ([(0, 0, 0), (0, 0, 0), (0, 0, 0), (0, 5, 0), (0, 5, 0)] :
        List Color).count (0, 0, 0) = 3 ∧
    ([(0, 0, 0), (0, 0, 0), (0, 0, 0), (0, 5, 0), (0, 5, 0)] :
        List Color).count (0, 5, 0) = 2 := by
  exact ⟨by decide, by decide, by decide⟩

/-- C2: counterexample. A compressed grid whose rows' run-length sums are 2
and 1 (a row-length mismatch) still renders: `html` succeeds, so no
InvalidInput error is raised, and the width rule is read from the first row
alone. -/
theorem C2_counterexample_mismatch_renders :
    ((⟨[[(1, (255, 0, 0)), (1, (0, 0, 255))], [(1, (255, 0, 0))]], "image"⟩ :
        ImageTable).pixel_matrix.map (fun row => (row.map Prod.fst).sum)
      = [2, 1]) ∧
    (⟨[[(1, (255, 0, 0)), (1, (0, 0, 255))], [(1, (255, 0, 0))]], "image"⟩ :
        ImageTable).width = some 2 ∧
    ((⟨[[(1, (255, 0, 0)), (1, (0, 0, 255))], [(1, (255, 0, 0))]], "image"⟩ :
        ImageTable).html).isSome = true := by
  exact ⟨by decide, by decide, by decide⟩

/-- C2 amended: rendering raises no error on row-length mismatch — it
succeeds on every non-empty compressed grid, and its only failure is an
empty grid (indexing row 0 for the width rule, which uses the first row's
run-length sum). -/
theorem C2_render_succeeds_iff_nonempty (t : ImageTable) :
    (t.html.isSome ↔ t.pixel_matrix ≠ []) ∧
    t.width = t.pixel_matrix.head?.map (fun row => (row.map Prod.fst).sum) := by
  cases h : t.pixel_matrix with
  | nil =>
    constructor
    · simp [ImageTable.html, ImageTable.styles, ImageTable.width, h]
    · simp [ImageTable.width, h]
  | cons row rest =>
    constructor
    · simp [ImageTable.html, ImageTable.styles, ImageTable.width, h]
    · simp [ImageTable.width, h]

theorem compressRowAux_replicate {α : Type} [DecidableEq α] (k : Nat) :
    ∀ (n : Nat) (v : α), compressRowAux n v (List.replicate k v) = [(n + k, v)] := by
  induction k with
  | zero => intro n v; simp [compressRowAux]
  | succ k ih =>
    intro n v
    rw [List.replicate_succ]
    have h1 : compressRowAux n v (v :: List.replicate k v) =
        compressRowAux (n + 1) v (List.replicate k v) := by
      simp [compressRowAux]
    rw [h1, ih (n + 1) v]
    have h2 : n + 1 + k = n + (k + 1) := by omega
    rw [h2]

/-- C3: occurrence counting is per run of the compressed grid, never per
raw pixel: a one-row grid of `w ≥ 2` identical pixels compresses to a
single run, whose color therefore counts once and gets no class — the
Color Class Map is empty and the single rendered element carries an inline
background declaration (plus an inline width, as `w > 1`). -/
theorem C3_single_color_row_inline (w : Nat) (col : Color) (hw : 2 ≤ w) :
    ImageTable.init [List.replicate w col] "image" =
      some ⟨[[(w, col)]], "image"⟩ ∧
    ImageTable.color_classes ⟨[[(w, col)]], "image"⟩ = [] ∧
    ImageTable.main ⟨[[(w, col)]], "image"⟩ =
      "<p class=\"" ++ "image" ++ "\">" ++ "<a " ++ "style=\"" ++
        "background:#" ++ hexColor col ++ ";" ++ "width:" ++ toString w ++
        "px" ++ "\"" ++ "/>" ++ "</p>" := by
  have hcc : ImageTable.color_classes ⟨[[(w, col)]], "image"⟩ = [] := by
    simp [ImageTable.color_classes, values_sorted_by_frequency, counterItems,
      firstEncounters, sortDescBy, List.count_cons]
  have hw1 : 1 < w := by omega
  refine ⟨?_, hcc, ?_⟩
  · obtain ⟨w', rfl⟩ : ∃ w', w = w' + 1 := ⟨w - 1, by omega⟩
    have h1 : compressRow (col :: List.replicate w' col) = some [(w' + 1, col)] := by
      show some (compressRowAux 1 col (List.replicate w' col)) = some [(w' + 1, col)]
      rw [compressRowAux_replicate w' 1 col]
      have h2 : 1 + w' = w' + 1 := by omega
      rw [h2]
    have h3 : compressed_matrix [col :: List.replicate w' col] =
        some [[(w' + 1, col)]] := by
      simp only [compressed_matrix, h1]
    simp only [ImageTable.init, List.replicate_succ, h3]
    rfl
  · simp only [ImageTable.main, ImageTable.cellattr, hcc]
    simp [cellattrWith, lookupColor, pyJoin, hw1, ← String.append_assoc]

/-- C3 witness: a 1×3 grid of a single color. -/
theorem C3_witness :
    2 ≤ 3 ∧
    (ImageTable.init [List.replicate 3 ((7 : Nat), (8 : Nat), (9 : Nat))]
        "image" = some ⟨[[(3, (7, 8, 9))]], "image"⟩ ∧
      ImageTable.color_classes ⟨[[(3, (7, 8, 9))]], "image"⟩ = [] ∧
      ImageTable.main ⟨[[(3, (7, 8, 9))]], "image"⟩ =
        "<p class=\"" ++ "image" ++ "\">" ++ "<a " ++ "style=\"" ++
          "background:#" ++ hexColor (7, 8, 9) ++ ";" ++ "width:" ++
          toString 3 ++ "px" ++ "\"" ++ "/>" ++ "</p>") :=
  ⟨by decide, C3_single_color_row_inline 3 (7, 8, 9) (by decide)⟩

/-- C8: a rendered run cell carries a class reference to the color's label
exactly when the color is in the class map, and otherwise an inline
`background:#rrggbb` declaration; it carries an inline width declaration of
`length` pixels exactly when `length > 1`; the class attribute precedes the
style attribute when both are present, separated by a space. -/
theorem C8_cellattr_cases (ccs : List (Color × String)) (len : Nat)
    (col : Color) :
    cellattrWith ccs (len, col) =
      match lookupColor ccs col with
      | some lbl =>
          "class=\"" ++ lbl ++ "\"" ++
            (if 1 < len then
              " " ++ "style=\"" ++ "width:" ++ toString len ++ "px" ++ "\""
            else "")
      | none =>
          "style=\"" ++ "background:#" ++ hexColor col ++
            (if 1 < len then ";" ++ "width:" ++ toString len ++ "px" else "")
            ++ "\"" := by
  cases h : lookupColor ccs col with
  | some lbl =>
    by_cases hl : 1 < len
    · simp only [cellattrWith, h, hl, pyJoin, if_true, if_pos hl]
      simp [pyJoin, ← String.append_assoc]
      rw [String.append_assoc ("class=\"" ++ lbl ++ "\"") " " ("style=\"width:")]
      simp
    · simp [cellattrWith, h, hl, pyJoin, ← String.append_assoc]
  | none =>
    by_cases hl : 1 < len
    · simp [cellattrWith, h, hl, pyJoin, ← String.append_assoc]
      rw [String.append_assoc ("style=\"background:#" ++ hexColor col) ";"
        ("width:")]
      simp
    · simp [cellattrWith, h, hl, pyJoin, ← String.append_assoc]

/-- C10: determinism — two pipeline runs on equal pixel grids and equal
container identifiers produce the same color→label map and the same markup
output; every stage is a pure function of its input. -/
theorem C10_deterministic (g1 g2 : List (List Color)) (c1 c2 : String)
    (hg : g1 = g2) (hc : c1 = c2) :
    (ImageTable.init g1 c1).map ImageTable.color_classes =
      (ImageTable.init g2 c2).map ImageTable.color_classes ∧
    (ImageTable.init g1 c1).bind ImageTable.html =
      (ImageTable.init g2 c2).bind ImageTable.html := by
  subst hg
  subst hc
  exact ⟨rfl, rfl⟩

/-- C10 witness: a concrete pipeline run repeated on the same input. -/
theorem C10_witness :
    ([[((1 : Nat), (2 : Nat), (3 : Nat))]] : List (List Color)) = [[(1, 2, 3)]] ∧
    ("image" : String) = "image" ∧
    ((ImageTable.init [[((1 : Nat), (2 : Nat), (3 : Nat))]] "image").map
        ImageTable.color_classes =
      (ImageTable.init [[(1, 2, 3)]] "image").map ImageTable.color_classes ∧
    (ImageTable.init [[((1 : Nat), (2 : Nat), (3 : Nat))]] "image").bind
        ImageTable.html =
      (ImageTable.init [[(1, 2, 3)]] "image").bind ImageTable.html) :=
  ⟨rfl, rfl, C10_deterministic [[(1, 2, 3)]] [[(1, 2, 3)]] "image" "image" rfl rfl⟩
